import Mathlib

/-!
# Kernel command-line arguments (`kernelargs.go`)

A shallow embedding of `kernelArgs.String` and `parseKernelArgs`.

Modelling conventions.

* A Go `string` is modelled as the list of its Unicode code points (`Str`).  The Go
  functions used by the source (`strings.Contains`, `strings.SplitN`, `strings.TrimSpace`,
  `strings.Fields`, `strings.Join`) are embedded on that representation, so the model
  covers strings that are valid UTF-8.
* A `*string` is an `Option Str` (`nil` is `none`).
* A `map[string]*string` is an association list with pairwise distinct keys.  Reading is
  `kernelArgs.get`, the assignment `m[k] = v` is `kernelArgs.set`.  The order in which
  `range` visits the entries is not fixed by Go, so `kernelArgs.String` takes the visiting
  order as the list it folds over, and statements quantify over every permutation of the
  entries.
* An index expression `a[i]` on a slice is `a.get? i` in the `Option` monad: `none` is the
  run-time panic of an out-of-range index.
-/

namespace KernelArgs

/-- A Go string, as the list of its code points. -/
abbrev Str := List Char

/-- The literal `"init="`. -/
def initEq : Str := ['i', 'n', 'i', 't', '=']

/-- The literal `"init"`. -/
def initKey : Str := ['i', 'n', 'i', 't']

/-- The literal `"="`. -/
def eqSep : Str := ['=']

/-- The literal `" "`. -/
def spaceSep : Str := [' ']

/-- Go `unicode.IsSpace`: the code points with the Unicode White_Space property. -/
def isSpace (c : Char) : Bool :=
  let n := c.toNat
  (9 ≤ n && n ≤ 13) || n == 32 || n == 0x85 || n == 0xA0 || n == 0x1680 ||
    (0x2000 ≤ n && n ≤ 0x200A) || n == 0x2028 || n == 0x2029 || n == 0x202F ||
    n == 0x205F || n == 0x3000

/-- Go `strings.Index`: the position of the first occurrence of `sep` in `s`, `none` for
Go's `-1`. -/
def Index : Str → Str → Option Nat
  | [], sep => if sep = [] then some 0 else none
  | c :: t, sep =>
    if sep <+: c :: t then some 0 else (Index t sep).map (· + 1)

/-- Go `strings.Contains`. -/
def Contains (s substr : Str) : Bool := (Index s substr).isSome

/-- The loop of Go `genSplit`: at most `n` further cuts at `sep`, then the rest. -/
def genSplitLoop (sep : Str) : Nat → Str → List Str
  | 0, s => [s]
  | n + 1, s =>
    match Index s sep with
    | none => [s]
    | some m => s.take m :: genSplitLoop sep n (s.drop (m + sep.length))

/-- Go `strings.SplitN` for a non-empty separator and `n ≥ 0` (the two ways the source
calls it): `n = 0` gives no pieces, otherwise at most `n` pieces, the last one being the
unsplit remainder. -/
def SplitN (s sep : Str) (n : Nat) : List Str :=
  if n = 0 then []
  else genSplitLoop sep (min n (s.length + 1) - 1) s

/-- Go `strings.TrimSpace`: drop leading and trailing white space. -/
def TrimSpace (s : Str) : Str :=
  ((s.dropWhile isSpace).reverse.dropWhile isSpace).reverse

/-- The scan of Go `strings.Fields`: `cur` is the field being read. -/
def fieldsAux : Str → Str → List Str
  | [], cur => if cur = [] then [] else [cur]
  | c :: t, cur =>
    if isSpace c then
      (if cur = [] then fieldsAux t [] else cur :: fieldsAux t [])
    else fieldsAux t (cur ++ [c])

/-- Go `strings.Fields`: the maximal runs of non-space characters. -/
def Fields (s : Str) : List Str := fieldsAux s []

/-- Go `strings.Join`. -/
def Join : List Str → Str → Str
  | [], _ => []
  | [a], _ => a
  | a :: b :: l, sep => a ++ sep ++ Join (b :: l) sep

end KernelArgs

/-- The Go type `kernelArgs`, `map[string]*string`, as an association list. -/
abbrev kernelArgs := List (KernelArgs.Str × Option KernelArgs.Str)

namespace kernelArgs

open KernelArgs

/-- Map read `m[k]` with presence: `none` when `k` is not a key, `some none` when the key
holds `nil`, `some (some v)` when it holds a pointer to `v`. -/
def get : kernelArgs → Str → Option (Option Str)
  | [], _ => none
  | (k, v) :: m, key => if k = key then some v else get m key

/-- Map assignment `m[key] = value`. -/
def set : kernelArgs → Str → Option Str → kernelArgs
  | [], key, value => [(key, value)]
  | (k, v) :: m, key, value =>
    if k = key then (k, value) :: m else (k, v) :: set m key value

/-- The keys of the map. -/
def keys (m : kernelArgs) : List Str := m.map Prod.fst

/-- Well-formed maps: no key occurs twice. -/
def WF (m : kernelArgs) : Prop := m.keys.Nodup

/-- The text `String` builds for one entry: `key`, or `key=value` when the value is not
`nil`. -/
def field (e : Str × Option Str) : Str :=
  match e.2 with
  | some value => e.1 ++ eqSep ++ value
  | none => e.1

/-- One iteration of the `range` loop of `String`, on the state `(fields, initField)`. -/
def stringStep (st : List Str × Option Str) (e : Str × Option Str) :
    List Str × Option Str :=
  if e.1 = initKey then (st.1, some (field e)) else (st.1 ++ [field e], st.2)

/-- The `range` loop of `String`, from `fields = nil` and `initField = nil`. -/
def stringLoop (order : kernelArgs) : List Str × Option Str :=
  order.foldl stringStep ([], none)

/-- The entries whose key is not `"init"`. -/
def nonInit (m : kernelArgs) : kernelArgs := m.filter (fun e => decide (e.1 ≠ initKey))

/-- The method `kernelArgs.String`, run with `range` visiting the entries in the order of
the list. -/
def String (order : kernelArgs) : Str :=
  let st := stringLoop order
  let kernelArgsString := Join st.1 spaceSep
  match st.2 with
  | some initField => kernelArgsString ++ spaceSep ++ initField
  | none => kernelArgsString

end kernelArgs

namespace KernelArgs

/-- The body of the `for _, kv := range strings.Fields(rawString)` loop. -/
def parseField (argMap : kernelArgs) (kv : Str) : Option kernelArgs := do
  let kvSplit := SplitN kv eqSep 2
  let key ← kvSplit.get? 0
  let value ← if kvSplit.length = 2 then (kvSplit.get? 1).map some else some none
  pure (argMap.set key value)

/-- The function `parseKernelArgs`; `none` is an index-out-of-range panic. -/
def parseKernelArgs (rawString : Str) : Option kernelArgs := do
  let (rawString, initArgs) ←
    if Contains rawString initEq then
      (do
        let initSplit := SplitN rawString initEq 2
        let before ← initSplit.get? 0
        let after ← initSplit.get? 1
        pure (TrimSpace before, some after))
    else (some (rawString, (none : Option Str)))
  let argMap ← (Fields rawString).foldlM parseField []
  match initArgs with
  | some init => pure (argMap.set initKey (some init))
  | none => pure argMap

/-- The decomposition `s = p ++ sep ++ t` cuts `s` at the first occurrence of `sep`: no
occurrence of `sep` starts at a position before `p.length`. -/
def FirstOcc (sep s p t : Str) : Prop :=
  s = p ++ sep ++ t ∧ ∀ i, i < p.length → ¬ sep <+: s.drop i

instance (sep s p t : Str) : Decidable (FirstOcc sep s p t) := by
  unfold FirstOcc; infer_instance

/-- A field as `strings.Fields` returns them: non-empty and without white space. -/
def IsField (f : Str) : Prop := f ≠ [] ∧ ∀ c ∈ f, isSpace c = false

instance (f : Str) : Decidable (IsField f) := by
  unfold IsField; infer_instance

/-- The text of a field before its first `=` (the whole field when it has none). -/
def fieldKey (f : Str) : Str := f.takeWhile (fun c => c != '=')

/-- The state a field stands for: `nil` when it has no `=`, otherwise the text after its
first `=`. -/
def fieldValue (f : Str) : Option Str :=
  if '=' ∈ f then some (f.dropWhile (fun c => c != '=')).tail else none

/-- The map entry a field stands for. -/
def entryOf (f : Str) : Str × Option Str := (fieldKey f, fieldValue f)

/-- The map after the field loop has run over `fs`, starting from `m`. -/
def setFields (m : kernelArgs) (fs : List Str) : kernelArgs :=
  fs.foldl (fun m f => m.set (fieldKey f) (fieldValue f)) m

/-- A text without `=` and without white space. -/
def NoEqNoSpace (s : Str) : Prop := ∀ c ∈ s, c ≠ '=' ∧ isSpace c = false

instance (s : Str) : Decidable (NoEqNoSpace s) := by
  unfold NoEqNoSpace; infer_instance

/-- A map whose keys and present values have no `=` and no white space. -/
def CleanMap (M : kernelArgs) : Prop :=
  ∀ e ∈ M, NoEqNoSpace e.1 ∧ ∀ v ∈ e.2, NoEqNoSpace v

instance (M : kernelArgs) : Decidable (CleanMap M) := by
  unfold CleanMap; infer_instance

/-- Parsing the output of `String` (entries visited in the order `order`) gives a map that
reads like `M` at every key. -/
def RoundTrips (M order : kernelArgs) : Prop :=
  ∃ m, parseKernelArgs order.String = some m ∧ ∀ k, m.get k = M.get k

instance (m : kernelArgs) : Decidable m.WF := by
  unfold kernelArgs.WF; infer_instance

/-! ## `strings.Index`, `strings.Contains`, `strings.SplitN` -/

theorem index_nil_sep (s : Str) : Index s [] = some 0 := by
  cases s <;> simp [Index]

theorem index_of_firstOcc (sep : Str) :
    ∀ (p t : Str), (∀ i, i < p.length → ¬ sep <+: (p ++ sep ++ t).drop i) →
      Index (p ++ sep ++ t) sep = some p.length
  | [], t, _ => by
    cases sep with
    | nil => simp [index_nil_sep]
    | cons c sep => simp [Index]
  | c :: p, t, h => by
    have h0 : ¬ sep <+: c :: (p ++ sep ++ t) := by
      have := h 0 (by simp)
      simpa using this
    have ih := index_of_firstOcc sep p t (fun i hi => by
      have := h (i + 1) (by simpa using hi)
      simpa using this)
    have e : (c :: p) ++ sep ++ t = c :: (p ++ sep ++ t) := by simp
    rw [e, Index, if_neg h0, ih]
    simp

theorem index_some (sep : Str) :
    ∀ (s : Str) (m : Nat), Index s sep = some m →
      s = s.take m ++ sep ++ s.drop (m + sep.length) ∧
        ∀ i, i < m → ¬ sep <+: s.drop i
  | [], m, h => by
    by_cases hs : sep = []
    · subst hs
      simp [Index] at h
      subst h
      simp
    · simp [Index, hs] at h
  | c :: s, m, h => by
    by_cases hp : sep <+: c :: s
    · simp only [Index, if_pos hp] at h
      cases h
      obtain ⟨t, ht⟩ := hp
      refine ⟨?_, by simp⟩
      have hd : (c :: s).drop (0 + sep.length) = t := by
        rw [← ht]; simp
      rw [hd]
      simpa using ht.symm
    · simp only [Index, if_neg hp] at h
      cases hi : Index s sep with
      | none => simp [hi] at h
      | some k =>
        simp only [hi, Option.map_some'] at h
        cases h
        obtain ⟨h1, h2⟩ := index_some sep s k hi
        refine ⟨?_, ?_⟩
        · have : (c :: s).drop (k + 1 + sep.length) = s.drop (k + sep.length) := by
            have e : k + 1 + sep.length = (k + sep.length) + 1 := by omega
            rw [e, List.drop_succ_cons]
          rw [this, List.take_succ_cons]
          simpa using h1
        · intro i hi2
          cases i with
          | zero => simpa using hp
          | succ j =>
            have := h2 j (by omega)
            simpa using this

theorem index_none (sep : Str) : ∀ (s : Str), Index s sep = none → ¬ sep <:+: s
  | [], h => by
    by_cases hs : sep = []
    · simp [Index, hs] at h
    · simpa using hs
  | c :: s, h => by
    by_cases hp : sep <+: c :: s
    · simp [Index, hp] at h
    · simp only [Index, if_neg hp] at h
      cases hi : Index s sep with
      | some k => simp [hi] at h
      | none =>
        have ih := index_none sep s hi
        intro hinf
        rcases List.infix_cons_iff.1 hinf with h1 | h1
        · exact hp h1
        · exact ih h1

theorem contains_iff (s sep : Str) : Contains s sep = true ↔ sep <:+: s := by
  constructor
  · intro h
    cases hi : Index s sep with
    | none => simp [Contains, hi] at h
    | some m =>
      obtain ⟨h1, _⟩ := index_some sep s m hi
      exact ⟨s.take m, s.drop (m + sep.length), h1.symm⟩
  · intro h
    cases hi : Index s sep with
    | none => exact absurd h (index_none sep s hi)
    | some m => simp [Contains, hi]

theorem contains_eq_false_iff (s sep : Str) : Contains s sep = false ↔ ¬ sep <:+: s := by
  rw [← contains_iff]; simp

theorem firstOcc_index {sep s p t : Str} (h : FirstOcc sep s p t) :
    Index s sep = some p.length := by
  obtain ⟨h1, h2⟩ := h
  subst h1
  exact index_of_firstOcc sep p t h2

theorem firstOcc_of_index {sep s : Str} {m : Nat} (h : Index s sep = some m) :
    FirstOcc sep s (s.take m) (s.drop (m + sep.length)) := by
  obtain ⟨h1, h2⟩ := index_some sep s m h
  refine ⟨h1, fun i hi => h2 i (lt_of_lt_of_le hi ?_)⟩
  simp

theorem splitN_two_of_index_some {s sep : Str} {m : Nat} (hsep : sep ≠ [])
    (h : Index s sep = some m) :
    SplitN s sep 2 = [s.take m, s.drop (m + sep.length)] := by
  have hs : 1 ≤ s.length := by
    cases s with
    | nil => simp [Index, hsep] at h
    | cons c s => simp
  have e : min 2 (s.length + 1) - 1 = 1 := by omega
  simp [SplitN, e, genSplitLoop, h]

theorem splitN_two_of_index_none {s sep : Str} (h : Index s sep = none) :
    SplitN s sep 2 = [s] := by
  have e : min 2 (s.length + 1) - 1 = 0 ∨ min 2 (s.length + 1) - 1 = 1 := by omega
  rcases e with e | e <;> simp [SplitN, e, genSplitLoop, h]

theorem splitN_two_firstOcc {sep s p t : Str} (hsep : sep ≠ []) (h : FirstOcc sep s p t) :
    SplitN s sep 2 = [p, t] := by
  rw [splitN_two_of_index_some hsep (firstOcc_index h)]
  obtain ⟨h1, _⟩ := h
  subst h1
  simp

/-! ## `strings.Fields`, `strings.TrimSpace`, `strings.Join` -/

theorem isSpace_space : isSpace ' ' = true := by decide

theorem fieldsAux_append_space (c : Char) (hc : isSpace c = true) (b : Str) :
    ∀ (a cur : Str), fieldsAux (a ++ c :: b) cur = fieldsAux a cur ++ fieldsAux b []
  | [], cur => by
    by_cases h : cur = [] <;> simp [fieldsAux, hc, h]
  | d :: a, cur => by
    by_cases hd : isSpace d = true
    · by_cases h : cur = [] <;>
        simp [fieldsAux, hd, h, fieldsAux_append_space c hc b a []]
    · simp [fieldsAux, hd, fieldsAux_append_space c hc b a (cur ++ [d])]

theorem fields_append_space (a b : Str) (c : Char) (hc : isSpace c = true) :
    Fields (a ++ c :: b) = Fields a ++ Fields b :=
  fieldsAux_append_space c hc b a []

theorem fieldsAux_word :
    ∀ (w rest cur : Str), (∀ c ∈ w, isSpace c = false) →
      fieldsAux (w ++ rest) cur = fieldsAux rest (cur ++ w)
  | [], rest, cur, _ => by simp
  | d :: w, rest, cur, h => by
    have hd : isSpace d = false := h d (by simp)
    have ih := fieldsAux_word w rest (cur ++ [d]) (fun c hc => h c (by simp [hc]))
    simp [fieldsAux, hd, ih]

theorem fields_word (w : Str) (hne : w ≠ []) (h : ∀ c ∈ w, isSpace c = false) :
    Fields w = [w] := by
  have := fieldsAux_word w [] [] h
  simp only [List.append_nil, List.nil_append] at this
  simp [Fields, this, fieldsAux, hne]

theorem fields_all_space : ∀ (s : Str), (∀ c ∈ s, isSpace c = true) → Fields s = []
  | [], _ => by simp [Fields, fieldsAux]
  | d :: s, h => by
    have hd : isSpace d = true := h d (by simp)
    have ih := fields_all_space s (fun c hc => h c (by simp [hc]))
    simpa [Fields, fieldsAux, hd] using ih

theorem fields_dropWhile : ∀ (s : Str), Fields (s.dropWhile isSpace) = Fields s
  | [] => by simp
  | d :: s => by
    by_cases hd : isSpace d = true
    · rw [List.dropWhile_cons_of_pos hd, fields_dropWhile s]
      simp [Fields, fieldsAux, hd]
    · rw [List.dropWhile_cons_of_neg hd]

theorem fields_reverse_dropWhile (s : Str) :
    Fields ((s.reverse.dropWhile isSpace).reverse) = Fields s := by
  induction s using List.reverseRecOn with
  | nil => simp
  | append_singleton s d ih =>
    by_cases hd : isSpace d = true
    · rw [List.reverse_append, List.reverse_singleton, List.singleton_append,
        List.dropWhile_cons_of_pos hd, ih]
      have := fields_append_space s [] d hd
      rw [this]
      simp [Fields, fieldsAux]
    · rw [List.reverse_append, List.reverse_singleton, List.singleton_append,
        List.dropWhile_cons_of_neg hd]
      simp

theorem fields_trimSpace (s : Str) : Fields (TrimSpace s) = Fields s := by
  rw [TrimSpace, fields_reverse_dropWhile, fields_dropWhile]

theorem fields_isField (f : Str) (h : IsField f) : Fields f = [f] :=
  fields_word f h.1 h.2

theorem fields_join : ∀ (fs : List Str), (∀ f ∈ fs, IsField f) →
    Fields (Join fs spaceSep) = fs
  | [], _ => by simp [Join, Fields, fieldsAux]
  | [a], h => by
    simpa [Join] using fields_isField a (h a (by simp))
  | a :: b :: l, h => by
    have ih := fields_join (b :: l) (fun f hf => h f (by simp [hf]))
    have e : Join (a :: b :: l) spaceSep = a ++ ' ' :: Join (b :: l) spaceSep := by
      simp [Join, spaceSep]
    rw [e, fields_append_space _ _ _ isSpace_space, ih, fields_isField a (h a (by simp))]
    simp

theorem join_append_singleton : ∀ (fs : List Str) (f sep : Str), fs ≠ [] →
    Join (fs ++ [f]) sep = Join fs sep ++ sep ++ f
  | [], _, _, h => absurd rfl h
  | [a], f, sep, _ => by simp [Join]
  | a :: b :: l, f, sep, _ => by
    have ih := join_append_singleton (b :: l) f sep (by simp)
    have e : a :: b :: l ++ [f] = a :: b :: (l ++ [f]) := by simp
    rw [e, Join]
    have e2 : b :: (l ++ [f]) = (b :: l) ++ [f] := by simp
    rw [e2, ih]
    simp [Join]

/-! ## The map operations -/

theorem get_set (m : kernelArgs) (key : Str) (value : Option Str) (k : Str) :
    (m.set key value).get k = if key = k then some value else m.get k := by
  induction m with
  | nil => simp [kernelArgs.set, kernelArgs.get]
  | cons e m ih =>
    obtain ⟨a, b⟩ := e
    by_cases h : a = key
    · subst h
      by_cases h2 : a = k <;> simp [kernelArgs.set, kernelArgs.get, h2]
    · by_cases h2 : a = k
      · subst h2
        simp [kernelArgs.set, kernelArgs.get, h, Ne.symm h]
      · simp [kernelArgs.set, kernelArgs.get, h, h2, ih]

theorem get_set_self (m : kernelArgs) (key : Str) (value : Option Str) :
    (m.set key value).get key = some value := by
  simp [get_set]

theorem keys_set (m : kernelArgs) (key : Str) (value : Option Str) :
    ∀ k, k ∈ (m.set key value).keys ↔ k = key ∨ k ∈ m.keys := by
  induction m with
  | nil => simp [kernelArgs.set, kernelArgs.keys]
  | cons e m ih =>
    obtain ⟨a, b⟩ := e
    intro k
    by_cases h : a = key
    · subst h
      simp [kernelArgs.set, kernelArgs.keys]
    · have := ih k
      simp only [kernelArgs.keys] at this
      simp [kernelArgs.set, kernelArgs.keys, h, this]
      tauto

theorem wf_set (m : kernelArgs) (key : Str) (value : Option Str) (h : m.WF) :
    (m.set key value).WF := by
  induction m with
  | nil => simp [kernelArgs.set, kernelArgs.WF, kernelArgs.keys]
  | cons e m ih =>
    obtain ⟨a, b⟩ := e
    simp only [kernelArgs.WF, kernelArgs.keys, List.map_cons, List.nodup_cons] at h
    by_cases hk : a = key
    · subst hk
      simpa [kernelArgs.set, kernelArgs.WF, kernelArgs.keys] using h
    · have ih2 := ih h.2
      have hmem := keys_set m key value a
      simp only [kernelArgs.WF, kernelArgs.keys] at ih2 hmem
      simp only [kernelArgs.set, if_neg hk, kernelArgs.WF, kernelArgs.keys, List.map_cons,
        List.nodup_cons]
      refine ⟨?_, ih2⟩
      rw [hmem]
      rintro (h1 | h1)
      · exact hk h1
      · exact h.1 h1

theorem get_eq_none_iff (m : kernelArgs) (k : Str) : m.get k = none ↔ k ∉ m.keys := by
  induction m with
  | nil => simp [kernelArgs.get, kernelArgs.keys]
  | cons e m ih =>
    obtain ⟨a, b⟩ := e
    simp only [kernelArgs.keys] at ih
    by_cases h : a = k
    · simp [kernelArgs.get, kernelArgs.keys, h]
    · simp [kernelArgs.get, kernelArgs.keys, h, ih, Ne.symm h]

theorem get_eq_some_iff (m : kernelArgs) (hm : m.WF) (k : Str) (v : Option Str) :
    m.get k = some v ↔ (k, v) ∈ m := by
  induction m with
  | nil => simp [kernelArgs.get]
  | cons e m ih =>
    obtain ⟨a, b⟩ := e
    simp only [kernelArgs.WF, kernelArgs.keys, List.map_cons, List.nodup_cons] at hm
    have ih2 := ih hm.2
    by_cases h : a = k
    · subst h
      simp only [kernelArgs.get, if_true, Option.some.injEq, List.mem_cons, Prod.mk.injEq,
        true_and]
      constructor
      · intro hb; exact Or.inl hb.symm
      · rintro (hb | hb)
        · exact hb.symm
        · exact absurd (List.mem_map_of_mem Prod.fst hb) hm.1
    · simp [kernelArgs.get, h, ih2, Ne.symm h]

/-! ## One field of the command line -/

theorem index_eqSep_none (f : Str) (h : '=' ∉ f) : Index f eqSep = none := by
  cases hi : Index f eqSep with
  | none => rfl
  | some m =>
    exfalso
    apply h
    have := (index_some eqSep f m hi).1
    rw [this]
    simp [eqSep]

theorem index_eqSep_some : ∀ (k v : Str), '=' ∉ k →
    Index (k ++ '=' :: v) eqSep = some k.length
  | [], v, _ => by simp [Index, eqSep]
  | c :: k, v, h => by
    have hc : c ≠ '=' := fun e => h (by simp [e])
    have ih := index_eqSep_some k v (fun e => h (by simp [e]))
    have hp : ¬ eqSep <+: c :: (k ++ '=' :: v) := by
      simp [eqSep, Ne.symm hc]
    have e : (c :: k) ++ '=' :: v = c :: (k ++ '=' :: v) := by simp
    rw [e, Index, if_neg hp, ih]
    simp

theorem parseField_flag (m : kernelArgs) (f : Str) (h : '=' ∉ f) :
    parseField m f = some (m.set f none) := by
  simp [parseField, splitN_two_of_index_none (index_eqSep_none f h)]

theorem parseField_kv (m : kernelArgs) (k v : Str) (h : '=' ∉ k) :
    parseField m (k ++ '=' :: v) = some (m.set k (some v)) := by
  have hs := splitN_two_of_index_some (by simp [eqSep]) (index_eqSep_some k v h)
  have e1 : List.take k.length (k ++ '=' :: v) = k := by simp
  have e2 : List.drop (k.length + eqSep.length) (k ++ '=' :: v) = v := by
    simp [eqSep]
  rw [e1, e2] at hs
  simp [parseField, hs]

theorem fieldKey_flag (f : Str) (h : '=' ∉ f) : fieldKey f = f := by
  rw [fieldKey, List.takeWhile_eq_self_iff]
  intro c hc
  have : c ≠ '=' := fun e => h (e ▸ hc)
  simpa using this

theorem fieldValue_flag (f : Str) (h : '=' ∉ f) : fieldValue f = none := by
  simp [fieldValue, h]

theorem fieldKey_kv : ∀ (k v : Str), '=' ∉ k → fieldKey (k ++ '=' :: v) = k
  | [], v, _ => by simp [fieldKey]
  | c :: k, v, h => by
    have hc : c ≠ '=' := fun e => h (by simp [e])
    have ih := fieldKey_kv k v (fun e => h (by simp [e]))
    simp only [fieldKey] at ih
    simp [fieldKey, hc, ih]

theorem dropWhile_kv : ∀ (k v : Str), '=' ∉ k →
    (k ++ '=' :: v).dropWhile (fun c => c != '=') = '=' :: v
  | [], v, _ => by simp
  | c :: k, v, h => by
    have hc : c ≠ '=' := fun e => h (by simp [e])
    have ih := dropWhile_kv k v (fun e => h (by simp [e]))
    simp [hc, ih]

theorem fieldValue_kv (k v : Str) (h : '=' ∉ k) : fieldValue (k ++ '=' :: v) = some v := by
  simp [fieldValue, dropWhile_kv k v h]

theorem field_split : ∀ (f : Str), '=' ∈ f → ∃ k v, f = k ++ '=' :: v ∧ '=' ∉ k
  | [], h => by simp at h
  | c :: f, h => by
    by_cases hc : c = '='
    · exact ⟨[], f, by simp [hc], by simp⟩
    · have hf : '=' ∈ f := by
        rcases List.mem_cons.1 h with h1 | h1
        · exact absurd h1.symm hc
        · exact h1
      obtain ⟨k, v, e, hk⟩ := field_split f hf
      refine ⟨c :: k, v, by simp [e], ?_⟩
      simp only [List.mem_cons, not_or]
      exact ⟨fun e2 => hc e2.symm, hk⟩

theorem parseField_eq (m : kernelArgs) (f : Str) :
    parseField m f = some (m.set (fieldKey f) (fieldValue f)) := by
  by_cases h : '=' ∈ f
  · obtain ⟨k, v, e, hk⟩ := field_split f h
    subst e
    rw [parseField_kv m k v hk, fieldKey_kv k v hk, fieldValue_kv k v hk]
  · rw [parseField_flag m f h, fieldKey_flag f h, fieldValue_flag f h]

theorem foldlM_parseField : ∀ (fs : List Str) (m : kernelArgs),
    fs.foldlM parseField m = some (setFields m fs)
  | [], m => by simp [setFields]
  | f :: fs, m => by
    simp [List.foldlM, parseField_eq, setFields,
      foldlM_parseField fs (m.set (fieldKey f) (fieldValue f))]

theorem parse_of_not_contains (s : Str) (h : Contains s initEq = false) :
    parseKernelArgs s = some (setFields [] (Fields s)) := by
  simp [parseKernelArgs, h, foldlM_parseField]

theorem parse_of_firstOcc (s p t : Str) (h : FirstOcc initEq s p t) :
    parseKernelArgs s = some ((setFields [] (Fields p)).set initKey (some t)) := by
  have hc : Contains s initEq = true := by
    simp [Contains, firstOcc_index h]
  have hs := splitN_two_firstOcc (by simp [initEq]) h
  simp [parseKernelArgs, hc, hs, foldlM_parseField, fields_trimSpace]

theorem firstOcc_exists (s sep : Str) (h : sep <:+: s) : ∃ p t, FirstOcc sep s p t := by
  have hc := (contains_iff s sep).2 h
  cases hi : Index s sep with
  | none => simp [Contains, hi] at hc
  | some m => exact ⟨_, _, firstOcc_of_index hi⟩

theorem firstOcc_unique {sep s p t p' t' : Str} (h : FirstOcc sep s p t)
    (h' : FirstOcc sep s p' t') : p = p' ∧ t = t' := by
  have e1 := firstOcc_index h
  have e2 := firstOcc_index h'
  rw [e1] at e2
  have hl : p.length = p'.length := by simpa using e2
  have hs : p ++ (sep ++ t) = p' ++ (sep ++ t') := by
    have a := h.1
    have b := h'.1
    rw [List.append_assoc] at a b
    rw [← a, ← b]
  have hp := List.append_inj hs hl
  exact ⟨hp.1, by simpa using hp.2⟩

/-! ## The loop of `String` -/

theorem foldl_stringStep (e0 : Str × Option Str) :
    ∀ (order : kernelArgs) (acc : List Str) (ini : Option Str),
      (∀ e ∈ order, e.1 = initKey → e = e0) →
      order.foldl kernelArgs.stringStep (acc, ini) =
        (acc ++ (kernelArgs.nonInit order).map kernelArgs.field,
          if initKey ∈ order.keys then some (kernelArgs.field e0) else ini)
  | [], acc, ini, _ => by simp [kernelArgs.nonInit, kernelArgs.keys]
  | e :: order, acc, ini, h => by
    have ih := fun acc ini =>
      foldl_stringStep e0 order acc ini (fun x hx => h x (by simp [hx]))
    by_cases he : e.1 = initKey
    · have e1 : e = e0 := h e (by simp) he
      have hf : kernelArgs.nonInit (e :: order) = kernelArgs.nonInit order := by
        simp [kernelArgs.nonInit, List.filter_cons, he]
      have hk : initKey ∈ kernelArgs.keys (e :: order) := by
        simp [kernelArgs.keys, he]
      rw [List.foldl_cons, kernelArgs.stringStep, if_pos he, ih, hf, if_pos hk, e1]
      by_cases hm : initKey ∈ kernelArgs.keys order <;> simp [hm]
    · have hf : kernelArgs.nonInit (e :: order) = e :: kernelArgs.nonInit order := by
        simp [kernelArgs.nonInit, List.filter_cons, he]
      rw [List.foldl_cons, kernelArgs.stringStep, if_neg he, ih, hf]
      by_cases hm : initKey ∈ kernelArgs.keys order
      · have hk : initKey ∈ kernelArgs.keys (e :: order) := by
          simp only [kernelArgs.keys] at hm
          simp [kernelArgs.keys, hm]
        rw [if_pos hm, if_pos hk]
        simp
      · have hk : initKey ∉ kernelArgs.keys (e :: order) := by
          simp only [kernelArgs.keys] at hm
          simp [kernelArgs.keys, hm, Ne.symm he]
        rw [if_neg hm, if_neg hk]
        simp

theorem string_of_no_init (order : kernelArgs) (h : initKey ∉ order.keys) :
    order.String = Join (order.map kernelArgs.field) spaceSep := by
  have hl := foldl_stringStep ([], none) order [] none (fun e he hk => by
    exfalso; apply h
    simp only [kernelArgs.keys, List.mem_map]
    exact ⟨e, he, hk⟩)
  have hn : kernelArgs.nonInit order = order := by
    simp only [kernelArgs.nonInit, List.filter_eq_self]
    intro e he
    have : e.1 ≠ initKey := fun hk => h (by
      simp only [kernelArgs.keys, List.mem_map]
      exact ⟨e, he, hk⟩)
    simpa using this
  simp only [kernelArgs.String, kernelArgs.stringLoop, hl, if_neg h, hn, List.nil_append]

theorem wf_perm {M order : kernelArgs} (hwf : M.WF) (hperm : order.Perm M) : order.WF := by
  have : (order.map Prod.fst).Perm (M.map Prod.fst) := hperm.map _
  exact (this.nodup_iff).2 hwf

theorem get_perm {M order : kernelArgs} (hwf : M.WF) (hperm : order.Perm M) (k : Str) :
    order.get k = M.get k := by
  have hwo := wf_perm hwf hperm
  cases hg : M.get k with
  | none =>
    rw [get_eq_none_iff] at hg ⊢
    intro hk
    apply hg
    have : (order.map Prod.fst).Perm (M.map Prod.fst) := hperm.map _
    exact this.mem_iff.1 hk
  | some v =>
    rw [get_eq_some_iff M hwf] at hg
    rw [get_eq_some_iff order hwo]
    exact hperm.mem_iff.2 hg

theorem string_of_init (M order : kernelArgs) (v : Option Str) (hwf : M.WF)
    (hperm : order.Perm M) (hinit : M.get initKey = some v) :
    order.String =
      Join ((kernelArgs.nonInit order).map kernelArgs.field) spaceSep ++ spaceSep ++
        kernelArgs.field (initKey, v) := by
  have hwo := wf_perm hwf hperm
  have hgo : order.get initKey = some v := by rw [get_perm hwf hperm, hinit]
  have hmem : initKey ∈ order.keys := by
    by_contra hc
    rw [← get_eq_none_iff] at hc
    rw [hc] at hgo
    exact absurd hgo (by simp)
  have hl := foldl_stringStep (initKey, v) order [] none (fun e he hk => by
    have h1 : (initKey, e.2) ∈ order := by rw [← hk]; exact he
    rw [← get_eq_some_iff order hwo, hgo] at h1
    have h2 : v = e.2 := by simpa using h1
    rw [h2, ← hk])
  simp only [kernelArgs.String, kernelArgs.stringLoop, hl, if_pos hmem, List.nil_append]

/-! ## Occurrences of a separator across a cut -/

theorem infix_append_cons {sep a b : Str} {c : Char} (hc : c ∉ sep) (hne : sep ≠ [])
    (h : sep <:+: a ++ c :: b) : sep <:+: a ∨ sep <:+: b := by
  obtain ⟨l, r, e⟩ := h
  rcases List.append_eq_append_iff.1 e with ⟨a', h1, _⟩ | ⟨c', h1, h2⟩
  · exact Or.inl ⟨l, a', h1.symm⟩
  · rcases List.append_eq_append_iff.1 h1 with ⟨x, h3, h4⟩ | ⟨x, h3, h4⟩
    · -- `a = l ++ x` and `sep = x ++ c'`
      cases c' with
      | nil =>
        simp only [List.append_nil] at h4
        subst h4
        exact Or.inl ⟨l, [], by simp [h3]⟩
      | cons d c'' =>
        exfalso
        simp only [List.cons_append, List.cons.injEq] at h2
        exact hc (by rw [h4, h2.1]; simp)
    · -- `l = a ++ x` and `c' = x ++ sep`
      subst h4
      cases x with
      | nil =>
        cases sep with
        | nil => exact absurd rfl hne
        | cons d sep' =>
          exfalso
          simp only [List.nil_append, List.cons_append, List.cons.injEq] at h2
          exact hc (by simp [h2.1])
      | cons d x' =>
        simp only [List.cons_append, List.cons.injEq] at h2
        exact Or.inr ⟨x', r, by rw [h2.2]⟩

theorem not_infix_append_space {sep a b : Str} {c : Char} (hc : c ∉ sep) (hne : sep ≠ [])
    (ha : ¬ sep <:+: a) (hb : ¬ sep <:+: b) : ¬ sep <:+: a ++ c :: b := fun h =>
  (infix_append_cons hc hne h).elim ha hb

theorem not_infix_join {sep : Str} (hc : ' ' ∉ sep) (hne : sep ≠ []) :
    ∀ (fs : List Str), (∀ f ∈ fs, ¬ sep <:+: f) → ¬ sep <:+: Join fs spaceSep
  | [], _ => by simpa [Join] using hne
  | [a], h => by simpa [Join] using h a (by simp)
  | a :: b :: l, h => by
    have ih := not_infix_join hc hne (b :: l) (fun f hf => h f (by simp [hf]))
    have e : Join (a :: b :: l) spaceSep = a ++ ' ' :: Join (b :: l) spaceSep := by
      simp [Join, spaceSep]
    rw [e]
    exact not_infix_append_space hc hne (h a (by simp)) ih

theorem space_not_mem_initEq : ' ' ∉ initEq := by decide

theorem initEq_ne_nil : initEq ≠ [] := by decide

theorem not_infix_of_all_space (s : Str) (h : ∀ c ∈ s, isSpace c = true) :
    ¬ initEq <:+: s := by
  rintro ⟨l, r, e⟩
  have : isSpace 'i' = true := h 'i' (by rw [← e]; simp [initEq])
  exact absurd this (by decide)

/-! ## The cut at `init=` -/

theorem initEq_prefix_overlap (x rest : Str) (hx : x ≠ [])
    (h : initEq <+: x ++ (initEq ++ rest)) : initEq <+: x := by
  rcases x with _ | ⟨c1, _ | ⟨c2, _ | ⟨c3, _ | ⟨c4, _ | ⟨c5, x5⟩⟩⟩⟩⟩
  · exact absurd rfl hx
  all_goals simp [initEq] at h ⊢
  exact h

theorem firstOcc_initEq (p t : Str) (h : ¬ initEq <:+: p) :
    FirstOcc initEq (p ++ initEq ++ t) p t := by
  refine ⟨rfl, fun i hi hp => h ?_⟩
  have e : List.drop i (p ++ initEq ++ t) = List.drop i p ++ (initEq ++ t) := by
    rw [List.append_assoc, List.drop_append_of_le_length (le_of_lt hi)]
  rw [e] at hp
  have hx : List.drop i p ≠ [] := by
    intro hd
    have := congrArg List.length hd
    simp at this
    omega
  have h1 := initEq_prefix_overlap (List.drop i p) t hx hp
  exact h1.isInfix.trans (List.drop_suffix i p).isInfix

/-! ## Maps built from fields with distinct keys -/

theorem set_of_not_mem (m : kernelArgs) (k : Str) (v : Option Str) (h : k ∉ m.keys) :
    m.set k v = m ++ [(k, v)] := by
  induction m with
  | nil => rfl
  | cons e m ih =>
    obtain ⟨a, b⟩ := e
    simp only [kernelArgs.keys, List.map_cons, List.mem_cons, not_or] at h
    have ih2 := ih (by simpa [kernelArgs.keys] using h.2)
    simp [kernelArgs.set, Ne.symm h.1, ih2]

theorem setFields_nodup : ∀ (fs : List Str) (m : kernelArgs),
    (m.keys ++ fs.map fieldKey).Nodup → setFields m fs = m ++ fs.map entryOf
  | [], m, _ => by simp [setFields]
  | f :: fs, m, h => by
    have hk : fieldKey f ∉ m.keys := by
      intro hm
      have := (List.nodup_append.1 h).2.2
      exact this hm (by simp)
    have hs := set_of_not_mem m (fieldKey f) (fieldValue f) hk
    have h2 : ((m ++ [(fieldKey f, fieldValue f)]).keys ++ fs.map fieldKey).Nodup := by
      simpa [kernelArgs.keys] using h
    have ih := setFields_nodup fs (m ++ [(fieldKey f, fieldValue f)]) h2
    simp only [setFields, List.foldl_cons] at ih ⊢
    rw [hs, ih]
    simp [entryOf]

theorem field_entryOf (f : Str) : kernelArgs.field (entryOf f) = f := by
  by_cases h : '=' ∈ f
  · obtain ⟨k, v, e, hk⟩ := field_split f h
    subst e
    simp [entryOf, fieldKey_kv k v hk, fieldValue_kv k v hk, kernelArgs.field, eqSep]
  · simp [entryOf, fieldKey_flag f h, fieldValue_flag f h, kernelArgs.field]

/-! ## Rendered fields read back -/

theorem split_unique {a b a' b' : Str} {c : Char} (ha' : c ∉ a') (hb' : c ∉ b')
    (h : a ++ c :: b = a' ++ c :: b') : a = a' := by
  rcases List.append_eq_append_iff.1 h with ⟨x, h1, h2⟩ | ⟨x, h1, h2⟩
  · cases x with
    | nil => simpa using h1.symm
    | cons d x' =>
      exfalso
      simp only [List.cons_append, List.cons.injEq] at h2
      exact ha' (by rw [h1, h2.1]; simp)
  · cases x with
    | nil => simpa using h1
    | cons d x' =>
      exfalso
      simp only [List.cons_append, List.cons.injEq] at h2
      exact hb' (by rw [h2.2]; simp)

theorem entryOf_field (e : Str × Option Str) (h : '=' ∉ e.1) :
    entryOf (kernelArgs.field e) = e := by
  obtain ⟨k, v⟩ := e
  cases v with
  | none => simp [entryOf, kernelArgs.field, fieldKey_flag k h, fieldValue_flag k h]
  | some v =>
    have e1 : kernelArgs.field (k, some v) = k ++ '=' :: v := by
      simp [kernelArgs.field, eqSep]
    rw [e1, entryOf, fieldKey_kv k v h, fieldValue_kv k v h]

theorem not_initEq_infix_field (e : Str × Option Str) (hk : '=' ∉ e.1)
    (hv : ∀ v ∈ e.2, '=' ∉ v) (hs : e.2 ≠ none → ¬ initKey <:+ e.1) :
    ¬ initEq <:+: kernelArgs.field e := by
  obtain ⟨k, v⟩ := e
  rintro ⟨l, r, h⟩
  cases v with
  | none =>
    apply hk
    simp only [kernelArgs.field] at h
    rw [← h]
    simp [initEq]
  | some v =>
    have e1 : (l ++ initKey) ++ '=' :: r = k ++ '=' :: v := by
      simpa [kernelArgs.field, eqSep, initEq, initKey] using h
    have := split_unique hk (hv v rfl) e1
    exact hs (by simp) ⟨l, this⟩

/-! ## Where the entries of a parsed map come from -/

theorem mem_of_get (m : kernelArgs) (k : Str) (v : Option Str) (h : m.get k = some v) :
    (k, v) ∈ m := by
  induction m with
  | nil => simp [kernelArgs.get] at h
  | cons e m ih =>
    obtain ⟨a, b⟩ := e
    by_cases hk : a = k
    · simp only [kernelArgs.get, if_pos hk, Option.some.injEq] at h
      simp [hk, h]
    · simp only [kernelArgs.get, if_neg hk] at h
      exact List.mem_cons_of_mem _ (ih h)

theorem mem_set (m : kernelArgs) (k : Str) (v : Option Str) (e : Str × Option Str)
    (h : e ∈ m.set k v) : e = (k, v) ∨ e ∈ m := by
  induction m with
  | nil => simpa [kernelArgs.set] using h
  | cons x m ih =>
    obtain ⟨a, b⟩ := x
    by_cases hk : a = k
    · simp only [kernelArgs.set, if_pos hk, List.mem_cons] at h
      rcases h with h | h
      · exact Or.inl (by rw [h, hk])
      · exact Or.inr (List.mem_cons_of_mem _ h)
    · simp only [kernelArgs.set, if_neg hk, List.mem_cons] at h
      rcases h with h | h
      · exact Or.inr (by simp [h])
      · rcases ih h with h2 | h2
        · exact Or.inl h2
        · exact Or.inr (List.mem_cons_of_mem _ h2)

theorem mem_setFields : ∀ (fs : List Str) (m : kernelArgs) (e : Str × Option Str),
    e ∈ setFields m fs → e ∈ m ∨ ∃ f ∈ fs, e = entryOf f
  | [], m, e, h => Or.inl (by simpa [setFields] using h)
  | f :: fs, m, e, h => by
    have h1 : e ∈ setFields (m.set (fieldKey f) (fieldValue f)) fs := by
      simpa [setFields] using h
    rcases mem_setFields fs _ e h1 with h2 | ⟨g, hg, he⟩
    · rcases mem_set m _ _ e h2 with h3 | h3
      · exact Or.inr ⟨f, by simp, h3⟩
      · exact Or.inl h3
    · exact Or.inr ⟨g, by simp [hg], he⟩

theorem wf_setFields : ∀ (fs : List Str) (m : kernelArgs), m.WF → (setFields m fs).WF
  | [], _, h => by simpa [setFields] using h
  | f :: fs, m, h => by
    have := wf_setFields fs _ (wf_set m (fieldKey f) (fieldValue f) h)
    simpa [setFields] using this

theorem mem_fieldsAux : ∀ (s cur : Str) (f : Str), (∀ c ∈ cur, isSpace c = false) →
    f ∈ fieldsAux s cur → IsField f ∧ f <:+: cur ++ s
  | [], cur, f, hcur, h => by
    by_cases hc : cur = []
    · simp [fieldsAux, hc] at h
    · simp only [fieldsAux, if_neg hc, List.mem_singleton] at h
      subst h
      exact ⟨⟨hc, hcur⟩, by simp⟩
  | c :: s, cur, f, hcur, h => by
    by_cases hsp : isSpace c = true
    · by_cases hc : cur = []
      · simp only [fieldsAux, hsp, if_true, if_pos hc] at h
        obtain ⟨h1, h2⟩ := mem_fieldsAux s [] f (by simp) h
        refine ⟨h1, ?_⟩
        have h3 : s <:+: cur ++ c :: s := ⟨cur ++ [c], [], by simp⟩
        exact (by simpa using h2 : f <:+: s).trans h3
      · simp only [fieldsAux, hsp, if_true, if_neg hc, List.mem_cons] at h
        rcases h with h | h
        · subst h
          exact ⟨⟨hc, hcur⟩, ⟨[], c :: s, by simp⟩⟩
        · obtain ⟨h1, h2⟩ := mem_fieldsAux s [] f (by simp) h
          refine ⟨h1, ?_⟩
          have h3 : s <:+: cur ++ c :: s := ⟨cur ++ [c], [], by simp⟩
          exact (by simpa using h2 : f <:+: s).trans h3
    · have hsp2 : isSpace c = false := by simpa using hsp
      simp only [fieldsAux, hsp2] at h
      have hcur2 : ∀ d ∈ cur ++ [c], isSpace d = false := by
        intro d hd
        rcases List.mem_append.1 hd with hd | hd
        · exact hcur d hd
        · rw [List.mem_singleton.1 hd]; exact hsp2
      obtain ⟨h1, h2⟩ := mem_fieldsAux s (cur ++ [c]) f hcur2 (by simpa using h)
      exact ⟨h1, by simpa using h2⟩

theorem mem_fields (s f : Str) (h : f ∈ Fields s) : IsField f ∧ f <:+: s := by
  have := mem_fieldsAux s [] f (by simp) h
  simpa using this

theorem firstOcc_not_infix {sep s p t : Str} (h : FirstOcc sep s p t) (hne : sep ≠ []) :
    ¬ sep <:+: p := by
  rintro ⟨l, r, e⟩
  obtain ⟨h1, h2⟩ := h
  have hlen : l.length < p.length := by
    have := congrArg List.length e
    have hs : 0 < sep.length := List.length_pos.2 hne
    simp at this
    omega
  apply h2 l.length hlen
  rw [h1, ← e]
  simp [List.append_assoc]

theorem parse_entries (s : Str) :
    ∃ m src, parseKernelArgs s = some m ∧ m.WF ∧ ¬ initEq <:+: src ∧
      ∀ e ∈ m, e.1 = initKey ∨ ∃ f ∈ Fields src, e = entryOf f := by
  have hwf0 : kernelArgs.WF [] := by simp [kernelArgs.WF, kernelArgs.keys]
  cases hc : Contains s initEq with
  | false =>
    refine ⟨_, s, parse_of_not_contains s hc, wf_setFields _ _ hwf0,
      (contains_eq_false_iff s initEq).1 hc, fun e he => ?_⟩
    rcases mem_setFields _ _ e he with h | h
    · simp at h
    · exact Or.inr h
  | true =>
    obtain ⟨p, t, h⟩ := firstOcc_exists s initEq ((contains_iff s initEq).1 hc)
    refine ⟨_, p, parse_of_firstOcc s p t h, wf_set _ _ _ (wf_setFields _ _ hwf0),
      firstOcc_not_infix h initEq_ne_nil, fun e he => ?_⟩
    rcases mem_set _ _ _ e he with h1 | h1
    · exact Or.inl (by rw [h1])
    · rcases mem_setFields _ _ e h1 with h2 | h2
      · simp at h2
      · exact Or.inr h2

theorem entryOf_isField (f : Str) (hf : IsField f) :
    (∀ c ∈ (entryOf f).1, isSpace c = false ∧ c ≠ '=') ∧
      (∀ v ∈ (entryOf f).2, ∀ c ∈ v, isSpace c = false) ∧ entryOf f ≠ ([], none) := by
  by_cases h : '=' ∈ f
  · obtain ⟨k, v, e, hk⟩ := field_split f h
    subst e
    simp only [entryOf, fieldKey_kv k v hk, fieldValue_kv k v hk]
    refine ⟨fun c hc => ⟨hf.2 c (by simp [hc]), fun e => hk (e ▸ hc)⟩, ?_, by simp⟩
    intro w hw c hc
    have : w = v := by simpa using hw.symm
    subst this
    exact hf.2 c (by simp [hc])
  · simp only [entryOf, fieldKey_flag f h, fieldValue_flag f h]
    refine ⟨fun c hc => ⟨hf.2 c hc, fun e => h (e ▸ hc)⟩, by simp, ?_⟩
    intro e
    exact hf.1 (by simpa using e)

/-! ## Reading back the output of `String` -/

theorem get_nonInit (l : kernelArgs) (k : Str) (hk : k ≠ initKey) :
    (kernelArgs.nonInit l).get k = l.get k := by
  induction l with
  | nil => rfl
  | cons e l ih =>
    obtain ⟨a, b⟩ := e
    by_cases ha : a = initKey
    · have hf : kernelArgs.nonInit ((a, b) :: l) = kernelArgs.nonInit l := by
        simp [kernelArgs.nonInit, List.filter_cons, ha]
      have hak : ¬ a = k := fun e => hk (e ▸ ha)
      rw [hf, ih, kernelArgs.get, if_neg hak]
    · have hf : kernelArgs.nonInit ((a, b) :: l) = (a, b) :: kernelArgs.nonInit l := by
        simp [kernelArgs.nonInit, List.filter_cons, ha]
      rw [hf, kernelArgs.get, kernelArgs.get, ih]

theorem wf_nonInit (l : kernelArgs) (h : l.WF) : (kernelArgs.nonInit l).WF := by
  have hsub : (kernelArgs.nonInit l).Sublist l := List.filter_sublist l
  exact (hsub.map Prod.fst).nodup h

theorem setFields_map_field (es : kernelArgs) (hwf : es.WF) (hkey : ∀ e ∈ es, '=' ∉ e.1) :
    setFields [] (es.map kernelArgs.field) = es := by
  have hent : (es.map kernelArgs.field).map entryOf = es := by
    rw [List.map_map]
    conv_rhs => rw [← List.map_id es]
    exact List.map_congr_left (fun e he => entryOf_field e (hkey e he))
  have hkeys : (es.map kernelArgs.field).map fieldKey = es.keys := by
    have := congrArg (List.map Prod.fst) hent
    simpa [kernelArgs.keys, entryOf, List.map_map, Function.comp_def] using this
  rw [setFields_nodup _ [] (by simpa [kernelArgs.keys, hkeys] using hwf), hent]
  rfl

theorem setFields_append (m : kernelArgs) (fs gs : List Str) :
    setFields m (fs ++ gs) = setFields (setFields m fs) gs := by
  simp [setFields, List.foldl_append]

theorem fields_join_space (fs : List Str) (h : ∀ f ∈ fs, IsField f) :
    Fields (Join fs spaceSep ++ spaceSep) = fs := by
  have := fields_append_space (Join fs spaceSep) [] ' ' isSpace_space
  rw [fields_join fs h] at this
  simpa [spaceSep, Fields, fieldsAux] using this

theorem roundTrips_core (M order : kernelArgs) (hwf : M.WF) (hperm : order.Perm M)
    (hkey : ∀ e ∈ M, ∀ c ∈ e.1, isSpace c = false ∧ c ≠ '=')
    (hempty : M.get [] ≠ some none)
    (hval : ∀ e ∈ M, e.1 ≠ initKey → ∀ v ∈ e.2, ∀ c ∈ v, isSpace c = false)
    (hfield : ∀ e ∈ M, e.1 ≠ initKey → ¬ initEq <:+: kernelArgs.field e) :
    RoundTrips M order := by
  have hwo := wf_perm hwf hperm
  have hes : ∀ e ∈ kernelArgs.nonInit order, e ∈ M ∧ e.1 ≠ initKey := by
    intro e he
    simp only [kernelArgs.nonInit, List.mem_filter, decide_eq_true_eq] at he
    exact ⟨hperm.mem_iff.1 he.1, he.2⟩
  have hF : ∀ f ∈ (kernelArgs.nonInit order).map kernelArgs.field, IsField f := by
    intro f hf
    obtain ⟨e, he, rfl⟩ := List.mem_map.1 hf
    obtain ⟨hm, hni⟩ := hes e he
    obtain ⟨k, v⟩ := e
    cases v with
    | none =>
      refine ⟨?_, fun c hc => (hkey _ hm c hc).1⟩
      intro hk
      simp only [kernelArgs.field] at hk
      subst hk
      exact hempty ((get_eq_some_iff M hwf [] none).2 hm)
    | some v =>
      refine ⟨by simp [kernelArgs.field, eqSep], fun c hc => ?_⟩
      simp only [kernelArgs.field, eqSep, List.mem_append, List.mem_singleton] at hc
      rcases hc with (hc | hc) | hc
      · exact (hkey _ hm c hc).1
      · rw [hc]; decide
      · exact hval _ hm hni v rfl c hc
  have hN : ¬ initEq <:+: Join ((kernelArgs.nonInit order).map kernelArgs.field) spaceSep := by
    apply not_infix_join space_not_mem_initEq initEq_ne_nil
    intro f hf
    obtain ⟨e, he, rfl⟩ := List.mem_map.1 hf
    exact hfield e (hes e he).1 (hes e he).2
  have hS : setFields [] ((kernelArgs.nonInit order).map kernelArgs.field) =
      kernelArgs.nonInit order :=
    setFields_map_field _ (wf_nonInit order hwo)
      (fun e he hc => (hkey e (hes e he).1 '=' hc).2 rfl)
  cases hg : M.get initKey with
  | none =>
    have hn : initKey ∉ order.keys := by
      rw [← get_eq_none_iff, get_perm hwf hperm, hg]
    have hno : kernelArgs.nonInit order = order := by
      simp only [kernelArgs.nonInit, List.filter_eq_self]
      intro e he
      have : e.1 ≠ initKey := fun hk => hn (by
        simp only [kernelArgs.keys, List.mem_map]
        exact ⟨e, he, hk⟩)
      simpa using this
    rw [hno] at hF hN hS
    refine ⟨order, ?_, fun k => get_perm hwf hperm k⟩
    rw [string_of_no_init order hn,
      parse_of_not_contains _ ((contains_eq_false_iff _ initEq).2 hN),
      fields_join _ hF, hS]
  | some v =>
    have hstr := string_of_init M order v hwf hperm hg
    have hget : ∀ k, ((kernelArgs.nonInit order).set initKey v).get k = M.get k := by
      intro k
      rw [get_set]
      by_cases hk : initKey = k
      · rw [if_pos hk, ← hk, hg]
      · rw [if_neg hk, get_nonInit order k (Ne.symm hk), get_perm hwf hperm]
    refine ⟨(kernelArgs.nonInit order).set initKey v, ?_, hget⟩
    cases v with
    | none =>
      have e1 : order.String =
          Join ((kernelArgs.nonInit order).map kernelArgs.field) spaceSep ++
            ' ' :: initKey := by
        rw [hstr]; simp [kernelArgs.field, spaceSep]
      have hni : ¬ initEq <:+:
          Join ((kernelArgs.nonInit order).map kernelArgs.field) spaceSep ++
            ' ' :: initKey :=
        not_infix_append_space space_not_mem_initEq initEq_ne_nil hN (by decide)
      rw [e1, parse_of_not_contains _ ((contains_eq_false_iff _ initEq).2 hni),
        fields_append_space _ _ ' ' isSpace_space, fields_join _ hF,
        fields_isField initKey (by decide), setFields_append, hS]
      rfl
    | some t =>
      have e1 : order.String =
          (Join ((kernelArgs.nonInit order).map kernelArgs.field) spaceSep ++ spaceSep) ++
            initEq ++ t := by
        rw [hstr]; simp [kernelArgs.field, spaceSep, initEq, initKey, eqSep]
      have hni : ¬ initEq <:+:
          Join ((kernelArgs.nonInit order).map kernelArgs.field) spaceSep ++ spaceSep := by
        have := not_infix_append_space (b := []) space_not_mem_initEq initEq_ne_nil hN
          (by simpa using initEq_ne_nil)
        simpa [spaceSep] using this
      rw [e1, parse_of_firstOcc _ _ _ (firstOcc_initEq _ t hni), fields_join_space _ hF, hS]

/-! ## The claims -/

/-- C1: when the raw string contains `init=`, it has a cut at the first occurrence of
`init=`, and for that cut `p ++ "init=" ++ t` the parser returns a map whose key `init`
holds a present value equal to `t`, the whole text after the first `init=`, untouched. -/
theorem parse_init_value_verbatim (s : Str) (h : initEq <:+: s) :
    (∃ p t, FirstOcc initEq s p t) ∧
      ∀ p t, FirstOcc initEq s p t →
        ∃ m, parseKernelArgs s = some m ∧ m.get initKey = some (some t) := by
  refine ⟨firstOcc_exists s initEq h, fun p t hpt => ?_⟩
  exact ⟨_, parse_of_firstOcc s p t hpt, get_set_self _ _ _⟩

/-- C1 at `"init quiet init=/sbin/init a  b "`: the value of `init` is
`"/sbin/init a  b "`, although a bare `init` field comes first. -/
theorem parse_init_value_verbatim_witness :
    initEq <:+: "init quiet init=/sbin/init a  b ".toList ∧
      ∃ m, parseKernelArgs "init quiet init=/sbin/init a  b ".toList = some m ∧
        m.get initKey = some (some "/sbin/init a  b ".toList) :=
  ⟨by decide,
    (parse_init_value_verbatim "init quiet init=/sbin/init a  b ".toList (by decide)).2
      "init quiet ".toList "/sbin/init a  b ".toList (by decide)⟩

/-- C2 as stated fails on the code: the map `{reinit: "1"}` serializes to `reinit=1`,
which holds the text `init=` and parses to `{re: nil, init: "1"}`; and the map `{"": nil}`
serializes to the empty string, which parses to the empty map.  Both maps have no `init`
key and no `=` or white space in keys and values. -/
theorem roundtrip_without_init_counterexample :
    (kernelArgs.WF [("reinit".toList, some "1".toList)] ∧
        kernelArgs.get [("reinit".toList, some "1".toList)] initKey = none ∧
        CleanMap [("reinit".toList, some "1".toList)] ∧
        ¬ RoundTrips [("reinit".toList, some "1".toList)]
          [("reinit".toList, some "1".toList)]) ∧
      (kernelArgs.WF [([], none)] ∧ kernelArgs.get [([], none)] initKey = none ∧
        CleanMap [([], none)] ∧ ¬ RoundTrips [([], none)] [([], none)]) := by
  refine ⟨⟨by decide, by decide, by decide, ?_⟩, by decide, by decide, by decide, ?_⟩
  · rintro ⟨m, hm, h⟩
    have hp : parseKernelArgs (kernelArgs.String [("reinit".toList, some "1".toList)]) =
        some [("re".toList, none), ("init".toList, some "1".toList)] := by decide
    rw [hp] at hm
    have h1 := h "reinit".toList
    rw [← Option.some.inj hm] at h1
    exact absurd h1 (by decide)
  · rintro ⟨m, hm, h⟩
    have hp : parseKernelArgs (kernelArgs.String [([], none)]) = some [] := by decide
    rw [hp] at hm
    have h1 := h []
    rw [← Option.some.inj hm] at h1
    exact absurd h1 (by decide)

/-- C2, amended: for a map `M` without the key `init`, whose keys and values have no `=`
and no white space, in which the empty key does not hold nil and no key holding a present
value ends in `init`, parsing `String` of `M` (any visiting order) gives a map with the
same keys, each in the same state as in `M`. -/
theorem roundtrip_without_init (M order : kernelArgs) (hwf : M.WF) (hperm : order.Perm M)
    (hinit : M.get initKey = none) (hclean : CleanMap M)
    (hempty : M.get [] ≠ some none)
    (hsuffix : ∀ e ∈ M, e.2 ≠ none → ¬ initKey <:+ e.1) :
    RoundTrips M order := by
  have hwo := wf_perm hwf hperm
  have hn : initKey ∉ order.keys := by
    rw [← get_eq_none_iff, get_perm hwf hperm, hinit]
  have hmem : ∀ e ∈ order, e ∈ M := fun e he => hperm.mem_iff.1 he
  have hkey : ∀ e ∈ order, '=' ∉ e.1 := fun e he hc =>
    ((hclean e (hmem e he)).1 '=' hc).1 rfl
  have hval : ∀ e ∈ order, ∀ v ∈ e.2, '=' ∉ v := fun e he v hv hc =>
    (((hclean e (hmem e he)).2 v hv) '=' hc).1 rfl
  have hfield : ∀ f ∈ order.map kernelArgs.field, IsField f := by
    intro f hf
    obtain ⟨e, he, rfl⟩ := List.mem_map.1 hf
    obtain ⟨k, v⟩ := e
    have hc := hclean _ (hmem _ he)
    cases v with
    | none =>
      refine ⟨?_, fun c hc2 => (hc.1 c hc2).2⟩
      intro hk
      simp only [kernelArgs.field] at hk
      subst hk
      exact hempty ((get_eq_some_iff M hwf [] none).2 (hmem _ he))
    | some v =>
      refine ⟨by simp [kernelArgs.field, eqSep], fun c hc2 => ?_⟩
      simp only [kernelArgs.field, eqSep, List.mem_append, List.mem_singleton] at hc2
      rcases hc2 with (hc2 | hc2) | hc2
      · exact (hc.1 c hc2).2
      · rw [hc2]; decide
      · exact (hc.2 v rfl c hc2).2
  have hni : ¬ initEq <:+: Join (order.map kernelArgs.field) spaceSep := by
    apply not_infix_join space_not_mem_initEq initEq_ne_nil
    intro f hf
    obtain ⟨e, he, rfl⟩ := List.mem_map.1 hf
    exact not_initEq_infix_field e (hkey e he) (hval e he) (hsuffix e (hmem e he))
  have hent : (order.map kernelArgs.field).map entryOf = order := by
    rw [List.map_map]
    conv_rhs => rw [← List.map_id order]
    exact List.map_congr_left (fun e he => entryOf_field e (hkey e he))
  have hkeys : (order.map kernelArgs.field).map fieldKey = order.keys := by
    have := congrArg (List.map Prod.fst) hent
    simpa [kernelArgs.keys, entryOf, List.map_map, Function.comp_def] using this
  have hset : setFields [] (order.map kernelArgs.field) = order := by
    rw [setFields_nodup _ [] (by simpa [kernelArgs.keys, hkeys] using hwo), hent]
    rfl
  refine ⟨order, ?_, fun k => get_perm hwf hperm k⟩
  rw [string_of_no_init order hn,
    parse_of_not_contains _ ((contains_eq_false_iff _ initEq).2 hni),
    fields_join _ hfield, hset]

/-- C2, amended, at `{foo: "", bar: nil, baz: "1"}` visited in the order
`bar, foo, baz`. -/
theorem roundtrip_without_init_witness :
    RoundTrips
      [("foo".toList, some []), ("bar".toList, none), ("baz".toList, some "1".toList)]
      [("bar".toList, none), ("foo".toList, some []), ("baz".toList, some "1".toList)] :=
  roundtrip_without_init _ _ (by decide) (List.Perm.swap _ _ _) (by decide) (by decide)
    (by decide) (by decide)

/-- C3: for a map `M` with the key `init` and any visiting order, `String` is the
single-space join of the rendered non-init entries (a permutation of those of `M`), then
one space, then the rendered init field, `init` for a nil value and `init=` followed by the
value otherwise; nothing follows the init field. -/
theorem string_init_last (M order : kernelArgs) (v : Option Str) (hwf : M.WF)
    (hperm : order.Perm M) (hinit : M.get initKey = some v) :
    order.String =
        Join ((kernelArgs.nonInit order).map kernelArgs.field) spaceSep ++ spaceSep ++
          (match v with
            | none => initKey
            | some w => initEq ++ w) ∧
      (kernelArgs.nonInit order).Perm (kernelArgs.nonInit M) := by
  refine ⟨?_, hperm.filter _⟩
  rw [string_of_init M order v hwf hperm hinit]
  cases v <;> simp [kernelArgs.field, initKey, initEq, eqSep]

/-- C3 at the map `{init: "/sbin/init", quiet: nil, console: "ttyS0"}` visited with `init`
first: the output is `"quiet console=ttyS0 init=/sbin/init"`. -/
theorem string_init_last_witness :
    kernelArgs.String [("init".toList, some "/sbin/init".toList), ("quiet".toList, none),
        ("console".toList, some "ttyS0".toList)] =
      "quiet console=ttyS0 init=/sbin/init".toList :=
  (string_init_last
    [("quiet".toList, none), ("init".toList, some "/sbin/init".toList),
      ("console".toList, some "ttyS0".toList)]
    [("init".toList, some "/sbin/init".toList), ("quiet".toList, none),
      ("console".toList, some "ttyS0".toList)]
    (some "/sbin/init".toList) (by decide) (List.Perm.swap _ _ _) (by decide)).1.trans
    (by decide)

/-- C4: for a map whose only key is `init`, `String` puts a space in front of the rendered
init field, so the output is never the rendered field alone. -/
theorem string_only_init_leading_space (v : Option Str) :
    kernelArgs.String [(initKey, v)] = spaceSep ++ kernelArgs.field (initKey, v) ∧
      kernelArgs.String [(initKey, v)] ≠ kernelArgs.field (initKey, v) ∧
      kernelArgs.String [(initKey, some "/sbin/init".toList)] = " init=/sbin/init".toList := by
  have h : kernelArgs.String [(initKey, v)] = spaceSep ++ kernelArgs.field (initKey, v) := by
    simp [kernelArgs.String, kernelArgs.stringLoop, kernelArgs.stringStep, Join]
  refine ⟨h, ?_, by decide⟩
  rw [h]
  intro e
  have := congrArg List.length e
  simp [spaceSep] at this

/-- C5: a non-empty field without white space and without `init=` parses to a one-entry
map: the field itself with a nil value when it has no `=`, otherwise the text before the
first `=` with the text after the first `=` as a present value. -/
theorem parse_single_field (f : Str) (hf : IsField f) (hni : ¬ initEq <:+: f) :
    ('=' ∉ f → parseKernelArgs f = some [(f, none)]) ∧
      ('=' ∈ f → ∃ k v, f = k ++ eqSep ++ v ∧ '=' ∉ k) ∧
      ∀ k v, f = k ++ eqSep ++ v → '=' ∉ k → parseKernelArgs f = some [(k, some v)] := by
  have hp : parseKernelArgs f = some [(fieldKey f, fieldValue f)] := by
    rw [parse_of_not_contains f ((contains_eq_false_iff f initEq).2 hni),
      fields_isField f hf]
    simp [setFields, kernelArgs.set]
  refine ⟨fun h => ?_, fun h => ?_, fun k v e hk => ?_⟩
  · rw [hp, fieldKey_flag f h, fieldValue_flag f h]
  · obtain ⟨k, v, e, hk⟩ := field_split f h
    exact ⟨k, v, by simp [eqSep, e], hk⟩
  · have e2 : f = k ++ '=' :: v := by simp [e, eqSep]
    rw [hp, e2, fieldKey_kv k v hk, fieldValue_kv k v hk]

/-- C5 at `"a=1=2"`: the map is `{a: "1=2"}`. -/
theorem parse_single_field_witness :
    parseKernelArgs "a=1=2".toList = some [("a".toList, some "1=2".toList)] :=
  (parse_single_field "a=1=2".toList (by decide) (by decide)).2.2
    "a".toList "1=2".toList (by decide) (by decide)

/-- C6: appending a space and a field `f` to a string `s` (neither containing `init=`)
makes the parser return the map of `s` with the key of `f` assigned the state of `f`: that
key now has the state of `f`, every other key reads as in the map of `s`. -/
theorem parse_last_write_wins (s f : Str) (hf : IsField f) (hs : ¬ initEq <:+: s)
    (hfi : ¬ initEq <:+: f) :
    ∃ m, parseKernelArgs s = some m ∧
      ('=' ∉ f →
        parseKernelArgs (s ++ spaceSep ++ f) = some (m.set f none) ∧
          ∀ k, (m.set f none).get k = if k = f then some none else m.get k) ∧
      ∀ key v, f = key ++ eqSep ++ v → '=' ∉ key →
        parseKernelArgs (s ++ spaceSep ++ f) = some (m.set key (some v)) ∧
          ∀ k, (m.set key (some v)).get k = if k = key then some (some v) else m.get k := by
  refine ⟨_, parse_of_not_contains s ((contains_eq_false_iff s initEq).2 hs), ?_, ?_⟩
  all_goals
    have hc : ¬ initEq <:+: s ++ ' ' :: f :=
      not_infix_append_space space_not_mem_initEq initEq_ne_nil hs hfi
    have hp : parseKernelArgs (s ++ spaceSep ++ f) =
        some ((setFields [] (Fields s)).set (fieldKey f) (fieldValue f)) := by
      have e : s ++ spaceSep ++ f = s ++ ' ' :: f := by simp [spaceSep]
      rw [e, parse_of_not_contains _ ((contains_eq_false_iff _ initEq).2 hc),
        fields_append_space s f ' ' isSpace_space, fields_isField f hf]
      simp [setFields]
  · intro h
    rw [hp, fieldKey_flag f h, fieldValue_flag f h]
    refine ⟨rfl, fun k => ?_⟩
    rw [get_set]
    by_cases hk : k = f
    · simp [hk]
    · simp [hk, Ne.symm hk]
  · intro key v e h
    have e2 : f = key ++ '=' :: v := by simp [e, eqSep]
    rw [hp, e2, fieldKey_kv key v h, fieldValue_kv key v h]
    refine ⟨rfl, fun k => ?_⟩
    rw [get_set]
    by_cases hk : k = key
    · simp [hk]
    · simp [hk, Ne.symm hk]

/-- C6 at `s = "a=1 b"` and `f = "a=2"`: the later `a=2` overwrites `a=1`, `b` stays. -/
theorem parse_last_write_wins_witness :
    parseKernelArgs "a=1 b a=2".toList =
      some [("a".toList, some "2".toList), ("b".toList, none)] := by
  obtain ⟨m, hm, -, h2⟩ :=
    parse_last_write_wins "a=1 b".toList "a=2".toList (by decide) (by decide) (by decide)
  have hm2 : m = [("a".toList, some "1".toList), ("b".toList, none)] := by
    have : parseKernelArgs "a=1 b".toList =
        some [("a".toList, some "1".toList), ("b".toList, none)] := by decide
    rw [this] at hm
    exact (Option.some.inj hm).symm
  have h3 := (h2 "a".toList "2".toList (by decide) (by decide)).1
  rw [hm2] at h3
  exact h3

/-- C7: the empty string and every string made of white space only parse to the empty
map, and `String` of the empty map (whose only visiting order is the empty one) is the
empty string. -/
theorem parse_empty_string_empty :
    parseKernelArgs [] = some [] ∧
      (∀ s : Str, (∀ c ∈ s, isSpace c = true) → parseKernelArgs s = some []) ∧
      (∀ order : kernelArgs, order.Perm [] → order.String = []) := by
  have h : ∀ s : Str, (∀ c ∈ s, isSpace c = true) → parseKernelArgs s = some [] := by
    intro s hs
    rw [parse_of_not_contains s
      ((contains_eq_false_iff s initEq).2 (not_infix_of_all_space s hs)),
      fields_all_space s hs]
    rfl
  refine ⟨h [] (by simp), h, fun order ho => ?_⟩
  rw [List.perm_nil.1 ho]
  rfl

/-- C7 at the string of a space, a tab and a newline. -/
theorem parse_empty_string_empty_witness :
    parseKernelArgs [' ', '\t', '\n'] = some [] :=
  parse_empty_string_empty.2.1 [' ', '\t', '\n'] (by decide)

/-- C8: a line made of fields `f1 .. fn` (non-empty, without white space, without
`init=`, with pairwise distinct keys other than `init`) followed by ` init=` and any text
`t` parses to a map, and `String` of that map, for every visiting order, is the
single-space join of a permutation of the fields followed by ` init=` and `t`.  The list
of fields need not even be non-empty. -/
theorem parse_string_init_line (fs : List Str) (t : Str)
    (hf : ∀ f ∈ fs, IsField f ∧ ¬ initEq <:+: f ∧ fieldKey f ≠ initKey)
    (hd : (fs.map fieldKey).Nodup) :
    ∃ m, parseKernelArgs (Join fs spaceSep ++ spaceSep ++ initEq ++ t) = some m ∧ m.WF ∧
      ∀ order : kernelArgs, order.Perm m →
        ∃ g, g.Perm fs ∧ order.String = Join g spaceSep ++ spaceSep ++ initEq ++ t := by
  have hni : ¬ initEq <:+: Join fs spaceSep ++ spaceSep := by
    have := not_infix_append_space (b := []) space_not_mem_initEq initEq_ne_nil
      (not_infix_join space_not_mem_initEq initEq_ne_nil fs (fun f h => (hf f h).2.1))
      (by simpa using initEq_ne_nil)
    simpa [spaceSep] using this
  have hfo := firstOcc_initEq (Join fs spaceSep ++ spaceSep) t hni
  have hfields : Fields (Join fs spaceSep ++ spaceSep) = fs := by
    have := fields_append_space (Join fs spaceSep) [] ' ' isSpace_space
    rw [fields_join fs (fun f h => (hf f h).1)] at this
    simpa [spaceSep, Fields, fieldsAux] using this
  have hm0 : setFields [] fs = fs.map entryOf :=
    setFields_nodup fs [] (by simpa [kernelArgs.keys] using hd)
  have hkeys : kernelArgs.keys (fs.map entryOf) = fs.map fieldKey := by
    simp [kernelArgs.keys, entryOf]
  have hnotin : initKey ∉ kernelArgs.keys (fs.map entryOf) := by
    rw [hkeys]
    intro hmem
    obtain ⟨f, hfm, e⟩ := List.mem_map.1 hmem
    exact (hf f hfm).2.2 e
  have hparse := parse_of_firstOcc _ _ _ hfo
  rw [hfields, hm0, set_of_not_mem _ _ _ hnotin] at hparse
  have hwf0 : kernelArgs.WF (fs.map entryOf) := by
    rw [kernelArgs.WF, hkeys]; exact hd
  have hwf : kernelArgs.WF (fs.map entryOf ++ [(initKey, some t)]) := by
    rw [← set_of_not_mem _ _ _ hnotin]
    exact wf_set _ _ _ hwf0
  have hget : kernelArgs.get (fs.map entryOf ++ [(initKey, some t)]) initKey =
      some (some t) := by
    rw [← set_of_not_mem _ _ _ hnotin]
    exact get_set_self _ _ _
  refine ⟨_, hparse, hwf, fun order ho => ?_⟩
  refine ⟨(kernelArgs.nonInit order).map kernelArgs.field, ?_, ?_⟩
  · have h1 : (kernelArgs.nonInit order).Perm
        (kernelArgs.nonInit (fs.map entryOf ++ [(initKey, some t)])) := ho.filter _
    have h2 : kernelArgs.nonInit (fs.map entryOf ++ [(initKey, some t)]) =
        fs.map entryOf := by
      simp only [kernelArgs.nonInit, List.filter_append]
      have : List.filter (fun e => decide (e.1 ≠ initKey)) (fs.map entryOf) =
          fs.map entryOf := by
        rw [List.filter_eq_self]
        intro e he
        obtain ⟨f, hfm, rfl⟩ := List.mem_map.1 he
        simpa [entryOf] using (hf f hfm).2.2
      rw [this]
      simp
    rw [h2] at h1
    have h3 := h1.map kernelArgs.field
    have h4 : (fs.map entryOf).map kernelArgs.field = fs := by
      rw [List.map_map]
      conv_rhs => rw [← List.map_id fs]
      exact List.map_congr_left (fun f _ => field_entryOf f)
    rw [h4] at h3
    exact h3
  · rw [string_of_init _ order (some t) hwf ho hget]
    simp [kernelArgs.field, initKey, initEq, eqSep]

/-- C8 at `"quiet console=ttyS0 init=/sbin/init arg1 arg2"`: the map is
`{quiet: nil, console: "ttyS0", init: "/sbin/init arg1 arg2"}`, and visiting it in the order
`console, init, quiet` gives the join of a permutation of `quiet`, `console=ttyS0`
followed by ` init=/sbin/init arg1 arg2`. -/
theorem parse_string_init_line_witness :
    parseKernelArgs "quiet console=ttyS0 init=/sbin/init arg1 arg2".toList =
        some [("quiet".toList, none), ("console".toList, some "ttyS0".toList),
          ("init".toList, some "/sbin/init arg1 arg2".toList)] ∧
      ∃ g, g.Perm ["quiet".toList, "console=ttyS0".toList] ∧
        kernelArgs.String [("console".toList, some "ttyS0".toList),
            ("init".toList, some "/sbin/init arg1 arg2".toList), ("quiet".toList, none)] =
          Join g spaceSep ++ spaceSep ++ initEq ++ "/sbin/init arg1 arg2".toList := by
  obtain ⟨m, hm, -, h⟩ :=
    parse_string_init_line ["quiet".toList, "console=ttyS0".toList]
      "/sbin/init arg1 arg2".toList (by decide) (by decide)
  have hp : parseKernelArgs "quiet console=ttyS0 init=/sbin/init arg1 arg2".toList =
      some [("quiet".toList, none), ("console".toList, some "ttyS0".toList),
        ("init".toList, some "/sbin/init arg1 arg2".toList)] := by decide
  refine ⟨hp, h _ ?_⟩
  have e : Join ["quiet".toList, "console=ttyS0".toList] spaceSep ++ spaceSep ++ initEq ++
      "/sbin/init arg1 arg2".toList =
      "quiet console=ttyS0 init=/sbin/init arg1 arg2".toList := by decide
  rw [e, hp] at hm
  rw [← Option.some.inj hm]
  decide

/-- C9: for a map without the key `init` and any visiting order, `String` is the
single-space join of the renderings of the entries in that order, which is a permutation
of the renderings of the entries of the map: each entry once, as `key` for a nil value and
`key=value` (so `key=` for the empty value) for a present one. -/
theorem string_without_init (M order : kernelArgs) (hwf : M.WF) (hperm : order.Perm M)
    (hinit : M.get initKey = none) :
    order.String = Join (order.map kernelArgs.field) spaceSep ∧
      (order.map kernelArgs.field).Perm (M.map kernelArgs.field) ∧
      (∀ k : Str, kernelArgs.field (k, none) = k) ∧
      (∀ k : Str, kernelArgs.field (k, some []) = k ++ eqSep) ∧
      ∀ k v : Str, kernelArgs.field (k, some v) = k ++ eqSep ++ v := by
  have hn : initKey ∉ order.keys := by
    rw [← get_eq_none_iff, get_perm hwf hperm, hinit]
  exact ⟨string_of_no_init order hn, hperm.map _, fun _ => rfl,
    fun _ => by simp [kernelArgs.field], fun _ _ => rfl⟩

/-- C9 at `{foo: "", bar: nil}`: the two visiting orders give `"foo= bar"` and
`"bar foo="`. -/
theorem string_without_init_witness :
    kernelArgs.String [("foo".toList, some []), ("bar".toList, none)] = "foo= bar".toList ∧
      kernelArgs.String [("bar".toList, none), ("foo".toList, some [])] =
        "bar foo=".toList :=
  ⟨(string_without_init [("foo".toList, some []), ("bar".toList, none)]
      [("foo".toList, some []), ("bar".toList, none)] (by decide) (List.Perm.refl _)
      (by decide)).1.trans (by decide),
    (string_without_init [("foo".toList, some []), ("bar".toList, none)]
      [("bar".toList, none), ("foo".toList, some [])] (by decide) (List.Perm.swap _ _ _)
      (by decide)).1.trans (by decide)⟩

/-- C10: `parseKernelArgs` returns a map on every input: no index expression of the
function is out of range. -/
theorem parseKernelArgs_total (s : Str) : ∃ m, parseKernelArgs s = some m := by
  cases hc : Contains s initEq with
  | false => exact ⟨_, parse_of_not_contains s hc⟩
  | true =>
    obtain ⟨p, t, h⟩ := firstOcc_exists s initEq ((contains_iff s initEq).1 hc)
    exact ⟨_, parse_of_firstOcc s p t h⟩

/-- C11: the cut at `init=` is found in the text, not per field: for a key `k` without
`=` and white space that does not end in `init`, the line `k=init=v` parses to exactly
the two entries `k` with the present empty value and `init` with the value `v`.  The key
need not even be non-empty. -/
theorem parse_textual_init_cut (k v : Str) (hclean : NoEqNoSpace k)
    (hs : ¬ initKey <:+ k) :
    parseKernelArgs (k ++ eqSep ++ initEq ++ v) =
      some [(k, some []), (initKey, some v)] := by
  have hk : '=' ∉ k := fun h => (hclean '=' h).1 rfl
  have hfld : kernelArgs.field (k, some []) = k ++ eqSep := by
    simp [kernelArgs.field]
  have hni : ¬ initEq <:+: k ++ eqSep := by
    rw [← hfld]
    exact not_initEq_infix_field (k, some []) hk (by simp) (fun _ => hs)
  have hfield : IsField (k ++ eqSep) := by
    refine ⟨by simp [eqSep], fun c hc => ?_⟩
    rcases List.mem_append.1 hc with h | h
    · exact (hclean c h).2
    · rw [List.mem_singleton.1 h]; decide
  have hne : k ≠ initKey := fun e => hs (e ▸ List.suffix_refl _)
  have hset : setFields [] [k ++ eqSep] = [(k, some [])] := by
    have e : k ++ eqSep = k ++ '=' :: [] := rfl
    simp [setFields, e, fieldKey_kv k [] hk, fieldValue_kv k [] hk, kernelArgs.set]
  rw [parse_of_firstOcc _ _ _ (firstOcc_initEq (k ++ eqSep) v hni),
    fields_isField _ hfield, hset]
  simp [kernelArgs.set, hne]

/-- C11 at `"foo=init=bar"`: the map is `{foo: "", init: "bar"}`. -/
theorem parse_textual_init_cut_witness :
    parseKernelArgs "foo=init=bar".toList =
      some [("foo".toList, some []), ("init".toList, some "bar".toList)] :=
  parse_textual_init_cut "foo".toList "bar".toList (by decide) (by decide)

/-- C12 as stated fails on the code: the raw string `init` has no `init=`, and it parses
to a map in which `init` is a key holding nil, not a present value. -/
theorem init_key_value_counterexample :
    parseKernelArgs "init".toList = some [(initKey, none)] ∧
      kernelArgs.get [(initKey, none)] initKey = some none ∧
      ¬ initEq <:+: "init".toList := by
  decide

/-- C12, amended: if `init` is a key of the parsed map, then either it holds nil, the raw
string has no `init=` and has the bare field `init`, or it holds a present value equal to
the whole text after the first `init=` of the raw string. -/
theorem init_key_value (s : Str) :
    ∃ m, parseKernelArgs s = some m ∧
      ∀ v, m.get initKey = some v →
        (v = none ∧ ¬ initEq <:+: s ∧ initKey ∈ Fields s) ∨
          ∃ p t, FirstOcc initEq s p t ∧ v = some t := by
  cases hc : Contains s initEq with
  | false =>
    have hni := (contains_eq_false_iff s initEq).1 hc
    refine ⟨_, parse_of_not_contains s hc, fun v hv => Or.inl ?_⟩
    rcases mem_setFields _ _ _ (mem_of_get _ _ _ hv) with h | ⟨f, hf, he⟩
    · simp at h
    · by_cases heq : '=' ∈ f
      · exfalso
        obtain ⟨k, w, e, hk⟩ := field_split f heq
        subst e
        simp only [entryOf, fieldKey_kv k w hk, fieldValue_kv k w hk, Prod.mk.injEq] at he
        apply hni
        have h1 : initEq <:+: k ++ '=' :: w := ⟨[], w, by rw [← he.1]; simp [initEq, initKey]⟩
        exact h1.trans (mem_fields s _ hf).2
      · simp only [entryOf, fieldKey_flag f heq, fieldValue_flag f heq, Prod.mk.injEq] at he
        exact ⟨he.2, hni, by rw [he.1]; exact hf⟩
  | true =>
    obtain ⟨p, t, h⟩ := firstOcc_exists s initEq ((contains_iff s initEq).1 hc)
    refine ⟨_, parse_of_firstOcc s p t h, fun v hv => Or.inr ⟨p, t, h, ?_⟩⟩
    rw [get_set_self] at hv
    exact (Option.some.inj hv).symm

/-- C12, amended, at `"a init=b c"`: the value of `init` is the text `"b c"` after the
first `init=`. -/
theorem init_key_value_witness :
    ∃ p t, FirstOcc initEq "a init=b c".toList p t ∧ some "b c".toList = some t := by
  obtain ⟨m, hm, h⟩ := init_key_value "a init=b c".toList
  have hp : parseKernelArgs "a init=b c".toList =
      some [("a".toList, none), ("init".toList, some "b c".toList)] := by decide
  rw [hp] at hm
  have hm2 := Option.some.inj hm
  rcases h (some "b c".toList) (by rw [← hm2]; decide) with h1 | h1
  · exact absurd h1.1 (by simp)
  · exact h1

/-- C13: for a text `p` without `init=` and any text `t`, parsing `p ++ "init=" ++ t`
gives the map of `p` with the key `init` assigned the present value `t`: every other key
reads as in the map of `p`, whatever `t` is, and every key is `init` or a key of the map
of `p`, so nothing of `t` becomes a key. -/
theorem parse_init_frame (p t : Str) (hp : ¬ initEq <:+: p) :
    ∃ m, parseKernelArgs p = some m ∧
      parseKernelArgs (p ++ initEq ++ t) = some (m.set initKey (some t)) ∧
      (∀ k, (m.set initKey (some t)).get k =
        if k = initKey then some (some t) else m.get k) ∧
      ∀ k ∈ kernelArgs.keys (m.set initKey (some t)), k = initKey ∨ k ∈ m.keys := by
  refine ⟨_, parse_of_not_contains p ((contains_eq_false_iff p initEq).2 hp),
    parse_of_firstOcc _ _ _ (firstOcc_initEq p t hp), fun k => ?_, fun k hk => ?_⟩
  · rw [get_set]
    by_cases h : k = initKey
    · simp [h]
    · simp [h, Ne.symm h]
  · exact (keys_set _ _ _ k).1 hk

/-- C13 at `p = "a b=1 "` and `t = "x y=2"`: the map is that of `"a b=1 "` with `init`
assigned `"x y=2"`; `x` and `y` are no keys. -/
theorem parse_init_frame_witness :
    parseKernelArgs "a b=1 init=x y=2".toList =
      some [("a".toList, none), ("b".toList, some "1".toList),
        ("init".toList, some "x y=2".toList)] := by
  obtain ⟨m, hm, h, -⟩ := parse_init_frame "a b=1 ".toList "x y=2".toList (by decide)
  have hp : parseKernelArgs "a b=1 ".toList =
      some [("a".toList, none), ("b".toList, some "1".toList)] := by decide
  rw [hp] at hm
  rw [← Option.some.inj hm] at h
  exact h

/-- C14: in the parsed map of any raw string no key has a white-space character or an
`=`, and the value of every key other than `init` has no white-space character. -/
theorem parse_keys_clean (s : Str) :
    ∃ m, parseKernelArgs s = some m ∧
      ∀ e ∈ m, (∀ c ∈ e.1, isSpace c = false ∧ c ≠ '=') ∧
        (e.1 ≠ initKey → ∀ v ∈ e.2, ∀ c ∈ v, isSpace c = false) := by
  obtain ⟨m, src, hm, -, -, hent⟩ := parse_entries s
  refine ⟨m, hm, fun e he => ?_⟩
  rcases hent e he with h | ⟨f, hf, rfl⟩
  · refine ⟨?_, fun hne => absurd h hne⟩
    rw [h]
    decide
  · have := entryOf_isField f (mem_fields src f hf).1
    exact ⟨this.1, fun _ => this.2.1⟩

/-- C14 at `"a=b=c  d init=x y"`, for the entry `a` with the value `"b=c"`. -/
theorem parse_keys_clean_witness :
    (∀ c ∈ "a".toList, isSpace c = false ∧ c ≠ '=') ∧
      ("a".toList ≠ initKey → ∀ v ∈ some "b=c".toList, ∀ c ∈ v, isSpace c = false) := by
  obtain ⟨m, hm, h⟩ := parse_keys_clean "a=b=c  d init=x y".toList
  have hp : parseKernelArgs "a=b=c  d init=x y".toList =
      some [("a".toList, some "b=c".toList), ("d".toList, none),
        ("init".toList, some "x y".toList)] := by decide
  rw [hp] at hm
  exact h ("a".toList, some "b=c".toList) (by rw [← Option.some.inj hm]; decide)

/-- C15: for every raw string the parser returns a map with distinct keys, and for every
visiting order of that map, parsing its `String` gives a map that reads the same at every
key: same keys, same nil or present state, same value text, the init value included. -/
theorem parse_string_parse (s : Str) :
    ∃ m, parseKernelArgs s = some m ∧ m.WF ∧
      ∀ order : kernelArgs, order.Perm m → RoundTrips m order := by
  obtain ⟨m, src, hm, hwf, hsrc, hent⟩ := parse_entries s
  refine ⟨m, hm, hwf, fun order hperm => ?_⟩
  refine roundTrips_core m order hwf hperm (fun e he => ?_) (fun hg => ?_)
    (fun e he hne => ?_) (fun e he hne => ?_)
  · rcases hent e he with h | ⟨f, hf, rfl⟩
    · rw [h]; decide
    · exact (entryOf_isField f (mem_fields src f hf).1).1
  · rcases hent _ (mem_of_get m [] none hg) with h | ⟨f, hf, h⟩
    · exact absurd h (by decide)
    · exact (entryOf_isField f (mem_fields src f hf).1).2.2 h.symm
  · rcases hent e he with h | ⟨f, hf, rfl⟩
    · exact absurd h hne
    · exact (entryOf_isField f (mem_fields src f hf).1).2.1
  · rcases hent e he with h | ⟨f, hf, rfl⟩
    · exact absurd h hne
    · rw [field_entryOf]
      exact fun h => hsrc (h.trans (mem_fields src f hf).2)

/-- C15 at `"b a=1 b=2=3 init init=x  init=y"`, whose map is
`{b: "2=3", a: "1", init: "x  init=y"}`, visited with `init` first. -/
theorem parse_string_parse_witness :
    RoundTrips
      [("b".toList, some "2=3".toList), ("a".toList, some "1".toList),
        ("init".toList, some "x  init=y".toList)]
      [("init".toList, some "x  init=y".toList), ("b".toList, some "2=3".toList),
        ("a".toList, some "1".toList)] := by
  obtain ⟨m, hm, -, h⟩ := parse_string_parse "b a=1 b=2=3 init init=x  init=y".toList
  have hp : parseKernelArgs "b a=1 b=2=3 init init=x  init=y".toList =
      some [("b".toList, some "2=3".toList), ("a".toList, some "1".toList),
        ("init".toList, some "x  init=y".toList)] := by decide
  rw [hp] at hm
  rw [Option.some.inj hm]
  exact h _ (by rw [← Option.some.inj hm]; decide)

/-- C16: for a map `M` with distinct keys in which (1) no key has white space or `=`,
(2) the empty key does not hold nil, (3) no value of a key other than `init` has white
space and (4) no rendered field of a key other than `init` contains `init=`, parsing
`String` of `M`, for every visiting order, returns a map with distinct keys that reads
like `M` at every key; the value of `init` is not restricted. -/
theorem roundtrip_with_init (M order : kernelArgs) (hwf : M.WF) (hperm : order.Perm M)
    (hkey : ∀ e ∈ M, ∀ c ∈ e.1, isSpace c = false ∧ c ≠ '=')
    (hempty : M.get [] ≠ some none)
    (hval : ∀ e ∈ M, e.1 ≠ initKey → ∀ v ∈ e.2, ∀ c ∈ v, isSpace c = false)
    (hfield : ∀ e ∈ M, e.1 ≠ initKey → ¬ initEq <:+: kernelArgs.field e) :
    ∃ m, parseKernelArgs order.String = some m ∧ m.WF ∧ ∀ k, m.get k = M.get k := by
  obtain ⟨m, hm, hget⟩ := roundTrips_core M order hwf hperm hkey hempty hval hfield
  obtain ⟨m2, -, hm2, hwf2, -, -⟩ := parse_entries order.String
  rw [hm] at hm2
  rw [← Option.some.inj hm2] at hwf2
  exact ⟨m, hm, hwf2, hget⟩

/-- C16 at `{a: "x=y", "": "v", init: "/bin/sh -c  init= z"}` visited with `init` first:
the output `a=x=y =v init=/bin/sh -c  init= z` parses back to the same map. -/
theorem roundtrip_with_init_witness :
    ∃ m, parseKernelArgs (kernelArgs.String
        [("init".toList, some "/bin/sh -c  init= z".toList),
          ("a".toList, some "x=y".toList), ([], some "v".toList)]) = some m ∧
      m.WF ∧
      ∀ k, m.get k = kernelArgs.get
        [("a".toList, some "x=y".toList), ([], some "v".toList),
          ("init".toList, some "/bin/sh -c  init= z".toList)] k :=
  roundtrip_with_init
    [("a".toList, some "x=y".toList), ([], some "v".toList),
      ("init".toList, some "/bin/sh -c  init= z".toList)]
    [("init".toList, some "/bin/sh -c  init= z".toList),
      ("a".toList, some "x=y".toList), ([], some "v".toList)]
    (by decide) (by decide) (by decide) (by decide) (by decide) (by decide)

end KernelArgs
